import Mathlib

/-!
Shallow embedding of the PR-comment normalization and formatting pipeline
(`pr_comments/models.py`, `pr_comments/parser.py`, `pr_comments/formatter.py`).

Python strings are modelled as `List Char` (a Python `str` is a sequence of
code points), so that every text operation used by the source — `str.split`,
`str.startswith`, `str.replace`, slicing, `"\n".join`, `str(int)` — is an
executable structural recursion the kernel can evaluate.  Python `int` is
`Int`; Python `None`/absence is `Option`; Python truthiness of the values the
source branches on is made explicit (`pyTruthyInt`, emptiness tests on lists).
-/

namespace PRCF

/-- Python `s.split("\n")`: splitting the empty string yields `[""]`, and a
trailing separator yields a trailing empty field. -/
def splitLines : List Char → List (List Char)
  | [] => [[]]
  | '\n' :: rest => [] :: splitLines rest
  | c :: rest =>
    match splitLines rest with
    | [] => [[c]]
    | l :: ls => (c :: l) :: ls

/-- Python `"\n".join(lines)`. -/
def joinLines : List (List Char) → List Char
  | [] => []
  | [l] => l
  | l :: ls => l ++ '\n' :: joinLines ls

/-- Python `s.startswith(p)`. -/
def startswith : List Char → List Char → Bool
  | _, [] => true
  | [], _ :: _ => false
  | c :: cs, p :: ps => c = p && startswith cs ps

/-- Python `s.replace(old, new)` for a single-character `old` (the only
form the source uses: `"Z" -> "+00:00"` and `"\n" -> " "`): replaces every
occurrence, scanning left to right. -/
def replaceChar (old : Char) (new : List Char) : List Char → List Char
  | [] => []
  | c :: rest =>
    if c = old then new ++ replaceChar old new rest
    else c :: replaceChar old new rest

/-- Decimal digits, fuel-driven so the kernel can evaluate it; the fuel
`n + 1` always suffices since `n / 10 < n` for `n ≥ 10`. -/
def natDigitsAux : Nat → Nat → List Char
  | 0, _ => []
  | f + 1, n =>
    if n < 10 then [Char.ofNat (48 + n)]
    else natDigitsAux f (n / 10) ++ [Char.ofNat (48 + n % 10)]

/-- Decimal digits of a natural number, as Python's `str` renders it. -/
def natDigits (n : Nat) : List Char :=
  natDigitsAux (n + 1) n

/-- Python `str(i)` for an `int`. -/
def intToStr (i : Int) : List Char :=
  if i < 0 then '-' :: natDigits i.natAbs else natDigits i.toNat

/-- Python string comparison `a < b`: lexicographic by code point. -/
def pyStrLt : List Char → List Char → Bool
  | [], [] => false
  | [], _ :: _ => true
  | _ :: _, [] => false
  | a :: as, b :: bs => a.toNat < b.toNat || (a = b && pyStrLt as bs)

/-- Python string comparison `a <= b`. -/
def pyStrLe (a b : List Char) : Bool :=
  pyStrLt a b || a = b

/-- Python truthiness of an `Optional[int]`: `None` and `0` are falsy. -/
def pyTruthyInt : Option Int → Bool
  | none => false
  | some v => v != 0

/-- Python `a or b` on `Optional[int]` operands: yields `a` when `a` is
truthy (present and non-zero), otherwise yields `b` verbatim. -/
def pyOrInt (a b : Option Int) : Option Int :=
  match a with
  | none => b
  | some v => if v = 0 then b else some v

/-- Python `x or 0` on an `Optional[int]` sort key. -/
def pyOrZero (a : Option Int) : Int :=
  match a with
  | none => 0
  | some v => v

/-- A UTC timestamp, as `datetime.fromisoformat` produces for the GitHub
API's Zulu strings.  Comparison follows Python's field-lexicographic
(chronological) datetime order via `Datetime.key`. -/
structure Datetime where
  year : Nat
  month : Nat
  day : Nat
  hour : Nat
  minute : Nat
  second : Nat
deriving DecidableEq, Repr

/-- Injective (for in-range fields) monotone key realising Python's
field-lexicographic datetime comparison: every multiplier strictly exceeds
the field's maximal valid value (month ≤ 12, day ≤ 31, hour ≤ 23,
minute, second ≤ 59). -/
def Datetime.key (d : Datetime) : Nat :=
  ((((d.year * 13 + d.month) * 32 + d.day) * 24 + d.hour) * 60 + d.minute) * 60
    + d.second

/-- Python `a < b` on datetimes. -/
def Datetime.lt (a b : Datetime) : Bool :=
  a.key < b.key

/-- Python `a <= b` on datetimes. -/
def Datetime.le (a b : Datetime) : Bool :=
  a.key ≤ b.key

/-- The UTC epoch, `datetime.fromisoformat("1970-01-01T00:00:00+00:00")`. -/
def epoch : Datetime :=
  ⟨1970, 1, 1, 0, 0, 0⟩

/-- Value of a decimal digit character, `None` when not a digit. -/
def digitVal (c : Char) : Option Nat :=
  if c.isDigit then some (c.toNat - 48) else none

/-- Gregorian leap-year test, as `datetime` validates dates. -/
def isLeap (y : Nat) : Bool :=
  (y % 4 = 0 && y % 100 != 0) || y % 400 = 0

/-- Days in a month, as `datetime` validates dates. -/
def daysInMonth (y m : Nat) : Nat :=
  if m = 2 then (if isLeap y then 29 else 28)
  else if m = 4 || m = 6 || m = 9 || m = 11 then 30
  else 31

/-- `parse_datetime` (`parser.py`): replaces the `Z` UTC marker with
`+00:00` and parses the resulting ISO-8601 string with
`datetime.fromisoformat`, modelled here for the `YYYY-MM-DDTHH:MM:SS+00:00`
shape the GitHub API produces (the source's own comment documents exactly
this form); any other shape is a parse failure. -/
def parse_datetime (s : List Char) : Option Datetime :=
  match replaceChar 'Z' "+00:00".data s with
  | y1 :: y2 :: y3 :: y4 :: '-' :: m1 :: m2 :: '-' :: d1 :: d2 :: 'T' ::
      h1 :: h2 :: ':' :: n1 :: n2 :: ':' :: s1 :: s2 :: rest =>
    match digitVal y1, digitVal y2, digitVal y3, digitVal y4,
        digitVal m1, digitVal m2, digitVal d1, digitVal d2,
        digitVal h1, digitVal h2, digitVal n1, digitVal n2,
        digitVal s1, digitVal s2 with
    | some a, some b, some c, some d, some e, some f, some g, some h,
        some i, some j, some k, some l, some m, some n =>
      let year := ((a * 10 + b) * 10 + c) * 10 + d
      let month := e * 10 + f
      let day := g * 10 + h
      let hour := i * 10 + j
      let minute := k * 10 + l
      let second := m * 10 + n
      if rest = "+00:00".data ∧ 1 ≤ month ∧ month ≤ 12 ∧ 1 ≤ day ∧
          day ≤ daysInMonth year month ∧ hour ≤ 23 ∧ minute ≤ 59 ∧
          second ≤ 59 then
        some ⟨year, month, day, hour, minute, second⟩
      else none
    | _, _, _, _, _, _, _, _, _, _, _, _, _, _ => none
  | _ => none

/-- `PRComment` (`models.py`): the canonical parsed comment record. -/
structure PRComment where
  id : Int
  file_path : List Char
  line_number : Option Int
  start_line : Option Int
  author : List Char
  body : List Char
  created_at : Datetime
  updated_at : Datetime
  diff_hunk : List Char
  html_url : List Char
deriving DecidableEq, Repr

/-- Python list slice `l[start:]` (no stop): a negative `start` counts from
the end, clamped at the head of the list. -/
def pySliceFrom (l : List (List Char)) (start : Int) : List (List Char) :=
  if start < 0 then l.drop (l.length - (-start).toNat)
  else l.drop start.toNat

/-- `PRComment.get_code_snippet` (`models.py`): empty result for an empty
hunk; otherwise split on newline, drop every line starting with `@@`, and
return all remaining lines when at most `max_lines`, else the slice
`content_lines[-max_lines:]`, rejoined with newline. -/
def get_code_snippet (c : PRComment) (max_lines : Int := 10) : List Char :=
  if c.diff_hunk = [] then []
  else
    let lines := splitLines c.diff_hunk
    let content_lines := lines.filter (fun l => !(startswith l "@@".data))
    if (content_lines.length : Int) ≤ max_lines then joinLines content_lines
    else joinLines (pySliceFrom content_lines (-max_lines))

/-- `PRComment.get_line_info` (`models.py`): the three-way human-readable
line description; the branch conditions are Python truthiness tests, so a
`0` line value behaves like an absent one. -/
def get_line_info (c : PRComment) : List Char :=
  if pyTruthyInt c.start_line && pyTruthyInt c.line_number &&
      decide (c.start_line ≠ c.line_number) then
    "lines ".data ++ intToStr (c.start_line.getD 0) ++ "-".data ++
      intToStr (c.line_number.getD 0)
  else if pyTruthyInt c.line_number then
    "line ".data ++ intToStr (c.line_number.getD 0)
  else
    "line unknown".data

/-- The `user` sub-object of a raw comment. -/
structure RawUser where
  login : Option (List Char)
deriving DecidableEq, Repr

/-- A raw GitHub API comment record, as `parse_comment` consumes it: every
field the source reads with `.get`, where `Option` covers both an absent key
and an explicit `null` (Python's `dict.get` returns `None` for both). -/
structure RawComment where
  id : Option Int
  path : Option (List Char)
  line : Option Int
  original_line : Option Int
  start_line : Option Int
  original_start_line : Option Int
  user : Option RawUser
  body : Option (List Char)
  created_at : Option (List Char)
  updated_at : Option (List Char)
  diff_hunk : Option (List Char)
  html_url : Option (List Char)
deriving DecidableEq, Repr

/-- The all-absent raw record. -/
def emptyRaw : RawComment :=
  ⟨none, none, none, none, none, none, none, none, none, none, none, none⟩

/-- `parse_comment` (`parser.py`): field mapping with defaults.  Line
fields use Python's `a or b` (so a present but zero `line` falls through to
`original_line`); a malformed present timestamp string propagates as a
failure (`none`), exactly where `datetime.fromisoformat` would raise. -/
def parse_comment (r : RawComment) : Option PRComment := do
  let line_number := pyOrInt r.line r.original_line
  let start_line := pyOrInt r.start_line r.original_start_line
  let user_data := r.user.getD ⟨none⟩
  let author := user_data.login.getD "unknown".data
  let created_at ← parse_datetime (r.created_at.getD "1970-01-01T00:00:00Z".data)
  let updated_at ← parse_datetime (r.updated_at.getD "1970-01-01T00:00:00Z".data)
  some
    { id := r.id.getD 0
      file_path := r.path.getD "unknown".data
      line_number := line_number
      start_line := start_line
      author := author
      body := r.body.getD []
      created_at := created_at
      updated_at := updated_at
      diff_hunk := r.diff_hunk.getD []
      html_url := r.html_url.getD [] }

/-- `parse_comments` (`parser.py`): `parse_comment` over each element,
preserving order; the first malformed timestamp aborts the whole parse,
as the uncaught exception would. -/
def parse_comments (rs : List RawComment) : Option (List PRComment) :=
  rs.mapM parse_comment

/-- `filter_by_author` (`parser.py`): `if not author` keeps everything
(both `None` and the empty string are falsy); otherwise keep exactly the
comments whose `author` matches by string equality. -/
def filter_by_author (comments : List PRComment) (author : Option (List Char)) :
    List PRComment :=
  match author with
  | none => comments
  | some a =>
    if a = [] then comments
    else comments.filter (fun c => c.author = a)

/-- One step of `get_most_recent_per_file`'s dict update: Python dicts keep
insertion order and an assignment to an existing key updates it in place, so
the model updates the first matching entry and appends a new key at the
end.  The replacement happens only on a strictly greater `updated_at`. -/
def upsert_recent : List (List Char × PRComment) → PRComment →
    List (List Char × PRComment)
  | [], c => [(c.file_path, c)]
  | (k, e) :: rest, c =>
    if k = c.file_path then
      (if Datetime.lt e.updated_at c.updated_at then (k, c) else (k, e)) :: rest
    else
      (k, e) :: upsert_recent rest c

/-- `get_most_recent_per_file` (`parser.py`): left-to-right scan keeping,
per file path, the entry replaced only on strictly greater `updated_at`;
the result is the dict's values in key insertion order. -/
def get_most_recent_per_file (comments : List PRComment) : List PRComment :=
  (comments.foldl upsert_recent []).map Prod.snd

/-- One step of `group_by_file`'s dict update: append the comment to its
file's list, or add a new `(path, [comment])` entry at the end. -/
def add_to_group : List (List Char × List PRComment) → PRComment →
    List (List Char × List PRComment)
  | [], c => [(c.file_path, [c])]
  | (k, v) :: rest, c =>
    if k = c.file_path then (k, v ++ [c]) :: rest
    else (k, v) :: add_to_group rest c

/-- `group_by_file` (`parser.py`): comments grouped by file path; each
file's list keeps input order, keys appear in first-seen order. -/
def group_by_file (comments : List PRComment) :
    List (List Char × List PRComment) :=
  comments.foldl add_to_group []

/-- Lookup in a grouped association list (`grouped[file_path]`). -/
def lookup_group (grouped : List (List Char × List PRComment))
    (f : List Char) : List PRComment :=
  match grouped.find? (fun p => p.fst = f) with
  | some p => p.snd
  | none => []

/-- Python truthiness of an `Optional[str]`: `None` and `""` are falsy. -/
def pyTruthyStr : Option (List Char) → Bool
  | none => false
  | some s => !s.isEmpty

/-- `updated_at.strftime("%Y-%m-%d %H:%M UTC")`: zero-padded fields. -/
def pad2 (n : Nat) : List Char :=
  if n < 10 then '0' :: natDigits n else natDigits n

/-- Zero-padding for `%Y` (CPython pads the year to four digits). -/
def pad4 (n : Nat) : List Char :=
  if n < 10 then "000".data ++ natDigits n
  else if n < 100 then "00".data ++ natDigits n
  else if n < 1000 then "0".data ++ natDigits n
  else natDigits n

/-- `d.strftime("%Y-%m-%d %H:%M UTC")` as used by the shared sub-renderer. -/
def fmt_date (d : Datetime) : List Char :=
  pad4 d.year ++ "-".data ++ pad2 d.month ++ "-".data ++ pad2 d.day ++
    " ".data ++ pad2 d.hour ++ ":".data ++ pad2 d.minute ++ " UTC".data

/-- `format_comment_for_llm` (`formatter.py`): the shared per-comment block
(heading, author, date, optional fenced snippet, body), newline-joined. -/
def format_comment_for_llm (c : PRComment) (include_snippet : Bool := true)
    (snippet_lines : Int := 10) : List Char :=
  let header :=
    ["### ".data ++ c.file_path ++ " (".data ++ get_line_info c ++ ")".data,
     "**Author:** ".data ++ c.author,
     "**Date:** ".data ++ fmt_date c.updated_at,
     []]
  let snippet_block :=
    if include_snippet then
      let snippet := get_code_snippet c snippet_lines
      if snippet = [] then []
      else ["**Code context:**".data, "```".data, snippet, "```".data, []]
    else []
  let body_block := ["**Comment:**".data, c.body, []]
  joinLines (header ++ snippet_block ++ body_block)

/-- The grouped/claude per-file sort key comparison:
`key=lambda c: (c.line_number or 0, c.updated_at)`, as a total preorder for
the stable sort. -/
def comment_key_le (a b : PRComment) : Bool :=
  decide (pyOrZero a.line_number < pyOrZero b.line_number) ||
    (decide (pyOrZero a.line_number = pyOrZero b.line_number) &&
      Datetime.le a.updated_at b.updated_at)

/-- `file_comments.sort(key=lambda c: (c.line_number or 0, c.updated_at))`,
a stable sort. -/
def sort_file_comments (l : List PRComment) : List PRComment :=
  l.mergeSort comment_key_le

/-- `sorted(grouped.keys())`: Python's lexicographic string sort. -/
def sorted_file_keys (grouped : List (List Char × List PRComment)) :
    List (List Char) :=
  (grouped.map Prod.fst).mergeSort pyStrLe

/-- The per-file iteration both `format_comments_grouped` and
`format_for_claude` perform: files in sorted key order, each file's
comments sorted by `(line_number or 0, updated_at)`. -/
def sorted_file_sections (comments : List PRComment) :
    List (List Char × List PRComment) :=
  let grouped := group_by_file comments
  (sorted_file_keys grouped).map
    (fun f => (f, sort_file_comments (lookup_group grouped f)))

/-- `format_comments_grouped` (`formatter.py`). -/
def format_comments_grouped (comments : List PRComment)
    (include_snippet : Bool := true) (snippet_lines : Int := 10) : List Char :=
  if comments.isEmpty then "No comments found.".data
  else
    let grouped := group_by_file comments
    let header :=
      ["# PR Comments Summary".data,
       "Total comments: ".data ++ natDigits comments.length,
       "Files with comments: ".data ++ natDigits grouped.length,
       []]
    let body :=
      (sorted_file_sections comments).flatMap (fun s =>
        ["## ".data ++ s.fst,
         "(".data ++ natDigits s.snd.length ++ " comment(s))".data,
         []] ++
        s.snd.flatMap (fun c =>
          [format_comment_for_llm c include_snippet snippet_lines,
           "---".data, []]))
    joinLines (header ++ body)

/-- `sorted(comments, key=lambda c: c.updated_at, reverse=True)`: stable
descending sort by `updated_at`. -/
def flat_sorted (comments : List PRComment) : List PRComment :=
  comments.mergeSort (fun a b => Datetime.le b.updated_at a.updated_at)

/-- `enumerate(sorted_comments, 1)`: sequential numbering from 1. -/
def flat_numbered (comments : List PRComment) : List (Nat × PRComment) :=
  List.enumFrom 1 (flat_sorted comments)

/-- `format_comments_flat` (`formatter.py`). -/
def format_comments_flat (comments : List PRComment)
    (include_snippet : Bool := true) (snippet_lines : Int := 10) : List Char :=
  if comments.isEmpty then "No comments found.".data
  else
    let header :=
      ["# PR Comments (".data ++ natDigits comments.length ++ " total)".data,
       []]
    let body :=
      (flat_numbered comments).flatMap (fun p =>
        ["## Comment ".data ++ natDigits p.fst,
         format_comment_for_llm p.snd include_snippet snippet_lines,
         "---".data, []])
    joinLines (header ++ body)

/-- The minimal renderer's per-file sort:
`sorted(file_comments, key=lambda c: c.line_number or 0)`, stable. -/
def minimal_key_le (a b : PRComment) : Bool :=
  decide (pyOrZero a.line_number ≤ pyOrZero b.line_number)

/-- The minimal renderer's body preview: first 100 characters with newlines
collapsed to spaces, plus an ellipsis when the body was longer. -/
def body_preview (body : List Char) : List Char :=
  replaceChar '\n' " ".data (body.take 100) ++
    (if 100 < body.length then "...".data else [])

/-- `format_comments_minimal` (`formatter.py`). -/
def format_comments_minimal (comments : List PRComment) : List Char :=
  if comments.isEmpty then "No comments found.".data
  else
    let grouped := group_by_file comments
    let header :=
      ["PR Comments: ".data ++ natDigits comments.length ++
         " total across ".data ++ natDigits grouped.length ++ " files".data,
       []]
    let body :=
      (sorted_file_keys grouped).flatMap (fun f =>
        ("📄 ".data ++ f) ::
        ((lookup_group grouped f).mergeSort minimal_key_le).map (fun c =>
          "  └─ ".data ++ get_line_info c ++ " (".data ++ c.author ++
            "): ".data ++ body_preview c.body) ++
        [[]])
    joinLines (header ++ body)

/-- `format_for_claude` (`formatter.py`). -/
def format_for_claude (comments : List PRComment)
    (pr_url : Option (List Char) := none)
    (pr_title : Option (List Char) := none)
    (include_snippet : Bool := true) (snippet_lines : Int := 15) : List Char :=
  if comments.isEmpty then "No review comments found on this PR.".data
  else
    let grouped := group_by_file comments
    let header :=
      ["# Pull Request Review Comments".data] ++
      (if pyTruthyStr pr_title then
        ["**PR Title:** ".data ++ pr_title.getD []] else []) ++
      (if pyTruthyStr pr_url then
        ["**PR URL:** ".data ++ pr_url.getD []] else []) ++
      ["**Total Comments:** ".data ++ natDigits comments.length,
       "**Files Affected:** ".data ++ natDigits grouped.length,
       [],
       "Below are the review comments that need to be addressed. Each comment includes:".data,
       "- The file path and line number(s)".data,
       "- A code snippet showing the context".data,
       "- The reviewer's comment/feedback".data,
       [],
       "---".data,
       []]
    let body :=
      (sorted_file_sections comments).flatMap (fun s =>
        ["## File: `".data ++ s.fst ++ "`".data, []] ++
        s.snd.flatMap (fun c =>
          ["### ".data ++ get_line_info c,
           "**Reviewer:** ".data ++ c.author,
           []] ++
          (if include_snippet then
            let snippet := get_code_snippet c snippet_lines
            if snippet = [] then []
            else
              ["**Code being reviewed:**".data, "```".data, snippet,
               "```".data, []]
          else []) ++
          ["**Review comment:**".data, c.body, [], "---".data, []]))
    let footer :=
      ["## Instructions for Addressing Comments".data,
       [],
       "Please review each comment above and make the necessary changes to the code.".data,
       "For each comment, consider:".data,
       "1. What specific change is being requested?".data,
       "2. Is the suggestion valid and should be implemented?".data,
       "3. Are there any related changes needed in other parts of the codebase?".data]
    joinLines (header ++ body ++ footer)

/-! Spec-side definitions, written from the specification's words, to be
compared against the source-translated functions above. -/

/-- The content lines of a hunk: split on newline, every line beginning
with the `@@` header marker discarded (named so statements about the
snippet extractor can refer to them). -/
def content_lines_of (c : PRComment) : List (List Char) :=
  (splitLines c.diff_hunk).filter (fun l => !(startswith l "@@".data))

/-- Spec wording for snippet truncation: "the last `max_lines` lines". -/
def lastN (l : List (List Char)) (k : Nat) : List (List Char) :=
  (l.reverse.take k).reverse

/-- Keep the later comment only when its `updated_at` is strictly greater
(the left-to-right scan's comparison). -/
def pick_later (a c : PRComment) : PRComment :=
  if Datetime.lt a.updated_at c.updated_at then c else a

/-- The first-encountered comment attaining the maximal `updated_at` of a
list: a left-to-right scan replacing only on strictly greater values. -/
def first_max : List PRComment → Option PRComment
  | [] => none
  | c :: rest => some (rest.foldl pick_later c)

/-- First occurrences of a list of paths not already seen, in order. -/
def fsAux : List (List Char) → List (List Char) → List (List Char)
  | _, [] => []
  | seen, x :: xs =>
    if x ∈ seen then fsAux seen xs else x :: fsAux (x :: seen) xs

/-- The distinct file paths of a comment list, in first-seen order. -/
def first_seen_paths (comments : List PRComment) : List (List Char) :=
  fsAux [] (comments.map PRComment.file_path)

/-- Spec-style statement of `get_most_recent_per_file`: one comment per
distinct file path in first-seen order, namely the first-encountered
comment with the greatest `updated_at` among that file's comments (equal
timestamps keep the earlier one). -/
def most_recent_spec (comments : List PRComment) : List PRComment :=
  (first_seen_paths comments).filterMap
    (fun f => first_max (comments.filter (fun c => c.file_path = f)))

/-! Concrete sample records used by witnesses and counterexamples. -/

/-- A timestamp on a fixed day, at the given hour. -/
def at_hour (h : Nat) : Datetime :=
  ⟨2026, 1, 30, h, 0, 0⟩

/-- A concrete comment record with the interesting fields supplied. -/
def sample (i : Int) (path : List Char) (line strt : Option Int)
    (auth : List Char) (upd : Datetime) : PRComment :=
  { id := i
    file_path := path
    line_number := line
    start_line := strt
    author := auth
    body := "body text".data
    created_at := epoch
    updated_at := upd
    diff_hunk := "@@ -1,3 +1,3 @@\n context\n-old\n+new".data
    html_url := [] }

/-- Three comments with distinct update times, for the flat renderer. -/
def flat_demo : List PRComment :=
  [sample 1 "a.py".data (some 1) none "alice".data (at_hour 10),
   sample 2 "b.py".data (some 2) none "bob".data (at_hour 12),
   sample 3 "c.py".data (some 3) none "carol".data (at_hour 9)]

/-- Three comments over two files, for the grouped/claude section order. -/
def grouped_demo : List PRComment :=
  [sample 1 "b.py".data (some 5) none "alice".data (at_hour 2),
   sample 2 "a.py".data (some 9) none "bob".data (at_hour 1),
   sample 3 "a.py".data (some 3) none "carol".data (at_hour 4)]

/-- Two comments on one file with exactly equal `updated_at`. -/
def tie_first : PRComment :=
  sample 1 "f.py".data none none "alice".data (at_hour 5)

/-- The later-encountered of the two equal-timestamp comments. -/
def tie_second : PRComment :=
  sample 2 "f.py".data none none "bob".data (at_hour 5)

/-! Order facts about the comparison functions used by the stable sorts. -/

theorem pyStrLt_trans :
    ∀ a b c : List Char, pyStrLt a b = true → pyStrLt b c = true →
      pyStrLt a c = true := by
  intro a
  induction a with
  | nil =>
    intro b c hab hbc
    cases b with
    | nil => simp [pyStrLt] at hab
    | cons y ys =>
      cases c with
      | nil => simp [pyStrLt] at hbc
      | cons z zs => simp [pyStrLt]
  | cons x xs ih =>
    intro b c hab hbc
    cases b with
    | nil => simp [pyStrLt] at hab
    | cons y ys =>
      cases c with
      | nil => simp [pyStrLt] at hbc
      | cons z zs =>
        simp only [pyStrLt, Bool.or_eq_true, Bool.and_eq_true,
          decide_eq_true_eq] at hab hbc ⊢
        rcases hab with h1 | ⟨rfl, h1⟩
        · rcases hbc with h2 | ⟨rfl, h2⟩
          · exact Or.inl (Nat.lt_trans h1 h2)
          · exact Or.inl h1
        · rcases hbc with h2 | ⟨rfl, h2⟩
          · exact Or.inl h2
          · exact Or.inr ⟨rfl, ih ys zs h1 h2⟩

theorem pyStrLt_tricho :
    ∀ a b : List Char, pyStrLt a b = true ∨ a = b ∨ pyStrLt b a = true := by
  intro a
  induction a with
  | nil =>
    intro b
    cases b with
    | nil => exact Or.inr (Or.inl rfl)
    | cons y ys => exact Or.inl (by simp [pyStrLt])
  | cons x xs ih =>
    intro b
    cases b with
    | nil => exact Or.inr (Or.inr (by simp [pyStrLt]))
    | cons y ys =>
      rcases Nat.lt_trichotomy x.toNat y.toNat with h | h | h
      · exact Or.inl (by simp [pyStrLt, h])
      · have hxy : x = y := by
          simpa [Char.ext_iff, UInt32.ext_iff] using h
        subst hxy
        rcases ih ys with h1 | h1 | h1
        · exact Or.inl (by simp [pyStrLt, h1])
        · exact Or.inr (Or.inl (by rw [h1]))
        · exact Or.inr (Or.inr (by simp [pyStrLt, h1]))
      · exact Or.inr (Or.inr (by simp [pyStrLt, h]))

theorem pyStrLe_trans (a b c : List Char) (hab : pyStrLe a b = true)
    (hbc : pyStrLe b c = true) : pyStrLe a c = true := by
  simp only [pyStrLe, Bool.or_eq_true, decide_eq_true_eq] at hab hbc ⊢
  rcases hab with h1 | rfl
  · rcases hbc with h2 | rfl
    · exact Or.inl (pyStrLt_trans a b c h1 h2)
    · exact Or.inl h1
  · exact hbc

theorem pyStrLe_total (a b : List Char) :
    (pyStrLe a b || pyStrLe b a) = true := by
  simp only [pyStrLe, Bool.or_eq_true, decide_eq_true_eq]
  rcases pyStrLt_tricho a b with h | rfl | h
  · exact Or.inl (Or.inl h)
  · exact Or.inl (Or.inr rfl)
  · exact Or.inr (Or.inl h)

theorem pyStrLt_of_le_of_ne (a b : List Char) (h : pyStrLe a b = true)
    (hne : a ≠ b) : pyStrLt a b = true := by
  simp only [pyStrLe, Bool.or_eq_true, decide_eq_true_eq] at h
  rcases h with h | rfl
  · exact h
  · exact absurd rfl hne

theorem comment_key_le_trans (a b c : PRComment)
    (hab : comment_key_le a b = true) (hbc : comment_key_le b c = true) :
    comment_key_le a c = true := by
  simp only [comment_key_le, Datetime.le, Bool.or_eq_true, Bool.and_eq_true,
    decide_eq_true_eq] at hab hbc ⊢
  rcases hab with h1 | ⟨h1, h1'⟩ <;> rcases hbc with h2 | ⟨h2, h2'⟩ <;>
    [left; left; left; right] <;> omega

theorem comment_key_le_total (a b : PRComment) :
    (comment_key_le a b || comment_key_le b a) = true := by
  simp only [comment_key_le, Datetime.le, Bool.or_eq_true, Bool.and_eq_true,
    decide_eq_true_eq]
  omega

theorem flat_le_trans (a b c : PRComment)
    (hab : Datetime.le b.updated_at a.updated_at = true)
    (hbc : Datetime.le c.updated_at b.updated_at = true) :
    Datetime.le c.updated_at a.updated_at = true := by
  simp only [Datetime.le, decide_eq_true_eq] at hab hbc ⊢
  omega

/-! ### Claim theorems -/

/-- C9: each of the four prose renderers returns its exact literal
empty-state string on an empty comment list, for every option value:
`"No comments found."` for grouped, flat and minimal, and
`"No review comments found on this PR."` for the claude renderer. -/
theorem claim9_empty_renderers (inc : Bool) (sl : Int)
    (url title : Option (List Char)) :
    format_comments_grouped [] inc sl = "No comments found.".data ∧
    format_comments_flat [] inc sl = "No comments found.".data ∧
    format_comments_minimal [] = "No comments found.".data ∧
    format_for_claude [] url title inc sl =
      "No review comments found on this PR.".data :=
  ⟨rfl, rfl, rfl, rfl⟩

/-- C9 witness: the empty-state literals at concrete option values. -/
theorem claim9_empty_renderers_witness :
    format_comments_grouped [] true 10 = "No comments found.".data ∧
    format_comments_flat [] true 10 = "No comments found.".data ∧
    format_comments_minimal [] = "No comments found.".data ∧
    format_for_claude [] none none true 15 =
      "No review comments found on this PR.".data :=
  claim9_empty_renderers true 10 none none

/-- C7: `filter_by_author` with an absent or empty author returns the input
unchanged; with a non-empty author it returns exactly the comments whose
`author` equals it (case-sensitive string equality), as a sublist — hence
in original relative order. -/
theorem claim7_filter_by_author (comments : List PRComment) (a : List Char)
    (h : a ≠ []) :
    filter_by_author comments none = comments ∧
    filter_by_author comments (some []) = comments ∧
    filter_by_author comments (some a) =
      comments.filter (fun c => c.author = a) ∧
    (filter_by_author comments (some a)).Sublist comments := by
  refine ⟨rfl, rfl, ?_, ?_⟩
  · simp [filter_by_author, h]
  · simp only [filter_by_author, h, if_neg h]
    exact List.filter_sublist comments

/-- C7 witness: filtering two concrete comments by a present author keeps
exactly the matching one, and the identity cases hold. -/
theorem claim7_filter_by_author_witness :
    filter_by_author
        [sample 1 "a.py".data none none "alice".data epoch,
         sample 2 "b.py".data none none "bob".data epoch] none =
      [sample 1 "a.py".data none none "alice".data epoch,
       sample 2 "b.py".data none none "bob".data epoch] ∧
    filter_by_author
        [sample 1 "a.py".data none none "alice".data epoch,
         sample 2 "b.py".data none none "bob".data epoch]
        (some "alice".data) =
      List.filter (fun c => c.author = "alice".data)
        [sample 1 "a.py".data none none "alice".data epoch,
         sample 2 "b.py".data none none "bob".data epoch] := by
  have h := claim7_filter_by_author
    [sample 1 "a.py".data none none "alice".data epoch,
     sample 2 "b.py".data none none "bob".data epoch]
    "alice".data (by decide)
  exact ⟨h.1, h.2.2.1⟩

/-- C2 counterexample: a record with a present `line_number` of `0` renders
as `"line unknown"`, not `"line 0"` — `get_line_info` branches on Python
truthiness, so `0` behaves like an absent line; the claim's
"`line unknown` exactly when `line_number` is absent" is false. -/
theorem claim2_line_info_counterexample :
    get_line_info (sample 1 "a.py".data (some 0) none "alice".data epoch) =
      "line unknown".data ∧
    "line unknown".data ≠ "line 0".data := by
  decide

/-- C2 amended: the three-way rendering holds with "present" strengthened
to "present and non-zero": `"lines {s}-{n}"` when both are present,
non-zero and differ; `"line {n}"` when `line_number` is present and
non-zero while `start_line` is absent, zero, or equal to it; and
`"line unknown"` when `line_number` is absent or zero. -/
theorem claim2_line_info (c : PRComment) :
    (∀ s n, c.start_line = some s → c.line_number = some n → s ≠ 0 →
      n ≠ 0 → s ≠ n →
      get_line_info c = "lines ".data ++ intToStr s ++ "-".data ++ intToStr n) ∧
    (∀ n, c.line_number = some n → n ≠ 0 →
      (c.start_line = none ∨ c.start_line = some 0 ∨ c.start_line = some n) →
      get_line_info c = "line ".data ++ intToStr n) ∧
    ((c.line_number = none ∨ c.line_number = some 0) →
      get_line_info c = "line unknown".data) := by
  refine ⟨?_, ?_, ?_⟩
  · intro s n hs hn hs0 hn0 hsn
    simp [get_line_info, hs, hn, pyTruthyInt, hs0, hn0, hsn]
  · intro n hn hn0 hcase
    rcases hcase with hs | hs | hs <;>
      simp [get_line_info, hs, hn, pyTruthyInt, hn0]
  · intro hcase
    rcases hcase with hn | hn <;>
      rcases hs : c.start_line with _ | s <;>
        simp [get_line_info, hs, hn, pyTruthyInt]

/-- C2 witness: the amended rule at concrete inputs — a multi-line range
renders as `"lines 45-50"`. -/
theorem claim2_line_info_witness :
    get_line_info (sample 1 "a.py".data (some 50) (some 45) "alice".data epoch) =
      "lines 45-50".data := by
  have h :=
    (claim2_line_info
        (sample 1 "a.py".data (some 50) (some 45) "alice".data epoch)).1
      45 50 rfl rfl (by decide) (by decide) (by decide)
  rw [h]
  decide

/-- C1 counterexample: a raw record with `line = 0` and
`original_line = 42` parses with `line_number = 42`: the source's
`comment_data.get("line") or comment_data.get("original_line")` is a Python
truthiness test, so a present `line` of `0` does trigger the fallback,
contrary to the claim. -/
theorem claim1_line_fallback_counterexample :
    (parse_comment
        { emptyRaw with line := some 0, original_line := some 42 }).map
        PRComment.line_number = some (some 42) ∧
    (some 42 : Option Int) ≠ some 0 := by
  decide

/-- C1 amended: `line_number` is the raw `line` whenever that field is
present and non-zero; when `line` is absent, null, or zero, `line_number`
is the raw `original_line` verbatim (possibly itself absent); `start_line`
follows the same rule from `start_line` then `original_start_line`.  In
particular a present `line` of `0` triggers the fallback rather than being
kept. -/
theorem claim1_line_fallback (r : RawComment) (c : PRComment)
    (h : parse_comment r = some c) :
    (∀ v, r.line = some v → v ≠ 0 → c.line_number = some v) ∧
    ((r.line = none ∨ r.line = some 0) → c.line_number = r.original_line) ∧
    (∀ v, r.start_line = some v → v ≠ 0 → c.start_line = some v) ∧
    ((r.start_line = none ∨ r.start_line = some 0) →
      c.start_line = r.original_start_line) := by
  rcases hc : parse_datetime (r.created_at.getD "1970-01-01T00:00:00Z".data)
    with _ | d1 <;>
    rcases hu : parse_datetime (r.updated_at.getD "1970-01-01T00:00:00Z".data)
      with _ | d2 <;>
    simp [parse_comment, hc, hu, Option.bind] at h
  obtain rfl := h.symm
  refine ⟨?_, ?_, ?_, ?_⟩
  · intro v hv hv0
    simp [pyOrInt, hv, hv0]
  · intro hcase
    rcases hcase with hv | hv <;> simp [pyOrInt, hv]
  · intro v hv hv0
    simp [pyOrInt, hv, hv0]
  · intro hcase
    rcases hcase with hv | hv <;> simp [pyOrInt, hv]

/-- C1 witness: the amended fallback rule at a concrete raw record with
`line = 0` and `original_line = 42`. -/
theorem claim1_line_fallback_witness :
    ({ id := 0, file_path := "unknown".data, line_number := some 42,
       start_line := none, author := "unknown".data, body := [],
       created_at := epoch, updated_at := epoch, diff_hunk := [],
       html_url := [] } : PRComment).line_number =
      ({ emptyRaw with line := some 0, original_line := some 42 } :
        RawComment).original_line := by
  exact (claim1_line_fallback
      { emptyRaw with line := some 0, original_line := some 42 }
      { id := 0, file_path := "unknown".data, line_number := some 42,
        start_line := none, author := "unknown".data, body := [],
        created_at := epoch, updated_at := epoch, diff_hunk := [],
        html_url := [] }
      (by decide)).2.1 (Or.inr rfl)

theorem lastN_eq_drop (l : List (List Char)) (k : Nat) :
    lastN l k = l.drop (l.length - k) := by
  rw [lastN, List.reverse_take, List.reverse_reverse, List.length_reverse]

/-- C4: for a positive `max_lines`, the snippet is empty for an empty hunk;
otherwise the newline-split hunk minus every `@@`-prefixed line is returned
whole when it fits, and exactly its last `max_lines` lines otherwise. -/
theorem claim4_snippet (c : PRComment) (m : Int) (hm : 0 < m) :
    (c.diff_hunk = [] → get_code_snippet c m = []) ∧
    (c.diff_hunk ≠ [] → ((content_lines_of c).length : Int) ≤ m →
      get_code_snippet c m = joinLines (content_lines_of c)) ∧
    (c.diff_hunk ≠ [] → m < ((content_lines_of c).length : Int) →
      get_code_snippet c m = joinLines (lastN (content_lines_of c) m.toNat)) := by
  refine ⟨fun h => by simp [get_code_snippet, h], fun h hle => ?_, fun h hgt => ?_⟩
  · simp only [get_code_snippet, if_neg h, content_lines_of] at hle ⊢
    rw [if_pos hle]
  · simp only [get_code_snippet, if_neg h, content_lines_of] at hgt ⊢
    rw [if_neg (not_le.mpr hgt), lastN_eq_drop]
    have hms : -m < 0 := by omega
    rw [pySliceFrom, if_pos hms, neg_neg]

/-- C4 witness: the sample hunk has three content lines; at `max_lines = 2`
the snippet is exactly the last two of them. -/
theorem claim4_snippet_witness :
    get_code_snippet (sample 1 "a.py".data (some 3) none "alice".data epoch) 2 =
      joinLines (lastN
        (content_lines_of (sample 1 "a.py".data (some 3) none "alice".data epoch))
        (2 : Int).toNat) :=
  (claim4_snippet (sample 1 "a.py".data (some 3) none "alice".data epoch) 2
      (by decide)).2.2 (by decide) (by decide)

/-- C10 counterexample: for a hunk whose only non-header line is empty
(`"@@ -1 +1 @@\n"`), `code_snippet` with `max_lines = 0` returns the empty
string, although the hunk does contain a line not starting with `@@` — the
claim's "not the empty string" conjunct fails. -/
theorem claim10_snippet_zero_counterexample :
    get_code_snippet { sample 1 "a.py".data none none "x".data epoch with diff_hunk := "@@ -1 +1 @@\n".data } 0 = [] ∧
    (∃ l ∈ splitLines "@@ -1 +1 @@\n".data, startswith l "@@".data = false) := by
  decide

/-- C10 amended: with `max_lines = 0` the snippet is all remaining content
lines joined by newline (the last-zero slice selects the whole list), and
there is at least one such line; the joined result is the empty string
only in the degenerate case that every remaining line is itself empty. -/
theorem claim10_snippet_zero (c : PRComment)
    (h : ∃ l ∈ splitLines c.diff_hunk, startswith l "@@".data = false) :
    get_code_snippet c 0 = joinLines (content_lines_of c) ∧
    content_lines_of c ≠ [] := by
  have hne : content_lines_of c ≠ [] := by
    obtain ⟨l, hl, hsw⟩ := h
    intro hc
    have hmem : l ∈ content_lines_of c := by
      simp [content_lines_of, List.mem_filter, hl, hsw]
    rw [hc] at hmem
    exact absurd hmem (List.not_mem_nil l)
  refine ⟨?_, hne⟩
  by_cases hd : c.diff_hunk = []
  · rw [content_lines_of, hd]
    simp [get_code_snippet, hd]
    decide
  · have hlen : 0 < (content_lines_of c).length :=
      List.length_pos.mpr hne
    simp only [get_code_snippet, if_neg hd, content_lines_of] at hlen ⊢
    rw [if_neg (by omega), neg_zero, pySliceFrom, if_neg (by omega)]
    simp

/-- C10 witness: the amended statement at the sample record, whose hunk has
three content lines. -/
theorem claim10_snippet_zero_witness :
    get_code_snippet (sample 2 "a.py".data none none "x".data epoch) 0 =
      joinLines (content_lines_of (sample 2 "a.py".data none none "x".data epoch)) ∧
    content_lines_of (sample 2 "a.py".data none none "x".data epoch) ≠ [] :=
  claim10_snippet_zero (sample 2 "a.py".data none none "x".data epoch)
    (by decide)

/-- C8: a raw record whose optional keys are absent in any combination
parses successfully (provided any timestamp strings that are present are
well-formed, the only failure source), and every absent field gets its
documented default: id 0, path and author "unknown", body/diff_hunk/url
empty, timestamps the UTC epoch, line fields absent. -/
theorem claim8_parse_defaults (r : RawComment)
    (hc : ∀ s, r.created_at = some s → (parse_datetime s).isSome)
    (hu : ∀ s, r.updated_at = some s → (parse_datetime s).isSome) :
    ∃ c, parse_comment r = some c ∧
      (r.id = none → c.id = 0) ∧
      (r.path = none → c.file_path = "unknown".data) ∧
      (r.user = none → c.author = "unknown".data) ∧
      (r.body = none → c.body = []) ∧
      (r.created_at = none → c.created_at = epoch) ∧
      (r.updated_at = none → c.updated_at = epoch) ∧
      (r.diff_hunk = none → c.diff_hunk = []) ∧
      (r.html_url = none → c.html_url = []) ∧
      (r.line = none → r.original_line = none → c.line_number = none) ∧
      (r.start_line = none → r.original_start_line = none →
        c.start_line = none) := by
  have hepoch : parse_datetime "1970-01-01T00:00:00Z".data = some epoch := by
    decide
  obtain ⟨d1, h1⟩ :
      ∃ d, parse_datetime (r.created_at.getD "1970-01-01T00:00:00Z".data) =
        some d := by
    cases hcc : r.created_at with
    | none => exact ⟨epoch, by simpa using hepoch⟩
    | some s =>
      have hsome := hc s hcc
      rw [Option.isSome_iff_exists] at hsome
      obtain ⟨d, hd⟩ := hsome
      exact ⟨d, by simpa using hd⟩
  obtain ⟨d2, h2⟩ :
      ∃ d, parse_datetime (r.updated_at.getD "1970-01-01T00:00:00Z".data) =
        some d := by
    cases hcc : r.updated_at with
    | none => exact ⟨epoch, by simpa using hepoch⟩
    | some s =>
      have hsome := hu s hcc
      rw [Option.isSome_iff_exists] at hsome
      obtain ⟨d, hd⟩ := hsome
      exact ⟨d, by simpa using hd⟩
  refine ⟨{ id := r.id.getD 0, file_path := r.path.getD "unknown".data,
            line_number := pyOrInt r.line r.original_line,
            start_line := pyOrInt r.start_line r.original_start_line,
            author := (r.user.getD ⟨none⟩).login.getD "unknown".data,
            body := r.body.getD [], created_at := d1, updated_at := d2,
            diff_hunk := r.diff_hunk.getD [],
            html_url := r.html_url.getD [] },
         ?_, ?_, ?_, ?_, ?_, ?_, ?_, ?_, ?_, ?_, ?_⟩
  · simp [parse_comment, h1, h2, Option.bind]
  · intro h; simp [h]
  · intro h; simp [h]
  · intro h; simp [h, Option.getD]
  · intro h; simp [h]
  · intro h
    rw [h, Option.getD_none] at h1
    exact Option.some.inj (h1.symm.trans hepoch)
  · intro h
    rw [h, Option.getD_none] at h2
    exact Option.some.inj (h2.symm.trans hepoch)
  · intro h; simp [h]
  · intro h; simp [h]
  · intro h h'; simp [pyOrInt, h, h']
  · intro h h'; simp [pyOrInt, h, h']

/-- C8 witness: the all-absent raw record parses to the fully-defaulted
comment. -/
theorem claim8_parse_defaults_witness :
    ∃ c, parse_comment emptyRaw = some c ∧
      (emptyRaw.id = none → c.id = 0) ∧
      (emptyRaw.path = none → c.file_path = "unknown".data) ∧
      (emptyRaw.user = none → c.author = "unknown".data) ∧
      (emptyRaw.body = none → c.body = []) ∧
      (emptyRaw.created_at = none → c.created_at = epoch) ∧
      (emptyRaw.updated_at = none → c.updated_at = epoch) ∧
      (emptyRaw.diff_hunk = none → c.diff_hunk = []) ∧
      (emptyRaw.html_url = none → c.html_url = []) ∧
      (emptyRaw.line = none → emptyRaw.original_line = none →
        c.line_number = none) ∧
      (emptyRaw.start_line = none → emptyRaw.original_start_line = none →
        c.start_line = none) :=
  claim8_parse_defaults emptyRaw (by simp [emptyRaw]) (by simp [emptyRaw])

/-- C6: the flat renderer's comment sequence is a permutation of the input
sorted by `updated_at` descending, numbered `1, 2, ...` in that order, and
the record numbered 1 has the greatest `updated_at` of the whole input. -/
theorem claim6_flat_order (comments : List PRComment) (h : comments ≠ []) :
    (flat_sorted comments).Perm comments ∧
    (flat_sorted comments).Pairwise
      (fun a b => Datetime.le b.updated_at a.updated_at = true) ∧
    (flat_numbered comments).map Prod.fst = List.range' 1 comments.length ∧
    ∃ top rest, flat_numbered comments = (1, top) :: rest ∧
      ∀ c ∈ comments, Datetime.le c.updated_at top.updated_at = true := by
  have hperm :=
    List.mergeSort_perm comments
      (fun a b => Datetime.le b.updated_at a.updated_at)
  have hsorted :
      (List.mergeSort comments
          (fun a b => Datetime.le b.updated_at a.updated_at)).Pairwise
        (fun a b => Datetime.le b.updated_at a.updated_at = true) :=
    List.sorted_mergeSort
      (fun a b c hab hbc => flat_le_trans a b c hab hbc)
      (fun a b => by
        simp only [Datetime.le, Bool.or_eq_true, decide_eq_true_eq]
        omega)
      comments
  refine ⟨hperm, hsorted, ?_, ?_⟩
  · have hlen : (flat_sorted comments).length = comments.length :=
      hperm.length_eq
    simp only [flat_numbered, List.enumFrom_map_fst, hlen]
  · cases hfs : flat_sorted comments with
    | nil =>
      simp only [flat_sorted] at hfs
      rw [hfs] at hperm
      exact absurd hperm.symm.eq_nil h
    | cons top rest =>
      simp only [flat_sorted] at hfs
      refine ⟨top, List.enumFrom 2 rest, ?_, ?_⟩
      · simp only [flat_numbered, flat_sorted, hfs]
        rfl
      · intro c hc
        have hc' : c ∈ List.mergeSort comments
            (fun a b => Datetime.le b.updated_at a.updated_at) :=
          hperm.mem_iff.mpr hc
        rw [hfs] at hc'
        rw [hfs] at hsorted
        rcases List.mem_cons.mp hc' with rfl | hmem
        · simp [Datetime.le]
        · exact (List.pairwise_cons.mp hsorted).1 c hmem

/-- C6 witness: the three demo comments (hours 10, 12, 9) are numbered
1, 2, 3 in descending time order, with the 12:00 comment first. -/
theorem claim6_flat_order_witness :
    (flat_numbered flat_demo).map Prod.fst =
      List.range' 1 flat_demo.length ∧
    ∃ top rest, flat_numbered flat_demo = (1, top) :: rest ∧
      ∀ c ∈ flat_demo, Datetime.le c.updated_at top.updated_at = true := by
  have h := claim6_flat_order flat_demo (by decide)
  exact ⟨h.2.2.1, h.2.2.2⟩

theorem keys_add_to_group (acc : List (List Char × List PRComment))
    (c : PRComment) :
    (add_to_group acc c).map Prod.fst =
      if c.file_path ∈ acc.map Prod.fst then acc.map Prod.fst
      else acc.map Prod.fst ++ [c.file_path] := by
  induction acc with
  | nil => simp [add_to_group]
  | cons kv rest ih =>
    obtain ⟨k, v⟩ := kv
    by_cases hk : k = c.file_path
    · subst hk
      simp [add_to_group]
    · have hk' : ¬ c.file_path = k := fun hcp => hk hcp.symm
      simp only [add_to_group, if_neg hk, List.map_cons, ih, List.mem_cons,
        hk', false_or]
      by_cases hmem : c.file_path ∈ rest.map Prod.fst
      · simp [hmem]
      · simp [hmem]

theorem group_keys_nodup_aux :
    ∀ (l : List PRComment) (acc : List (List Char × List PRComment)),
      (acc.map Prod.fst).Nodup → ((l.foldl add_to_group acc).map Prod.fst).Nodup := by
  intro l
  induction l with
  | nil => intro acc h; simpa using h
  | cons c rest ih =>
    intro acc h
    rw [List.foldl_cons]
    apply ih
    rw [keys_add_to_group]
    by_cases hmem : c.file_path ∈ acc.map Prod.fst
    · simpa [hmem] using h
    · rw [if_neg hmem]
      rw [List.nodup_append]
      exact ⟨h, List.nodup_singleton _, by simpa using hmem⟩

theorem group_keys_nodup (comments : List PRComment) :
    ((group_by_file comments).map Prod.fst).Nodup := by
  simp only [group_by_file]
  exact group_keys_nodup_aux comments [] (by simp)

theorem lookup_add_to_group (acc : List (List Char × List PRComment))
    (c : PRComment) (f : List Char) :
    lookup_group (add_to_group acc c) f =
      if c.file_path = f then lookup_group acc f ++ [c]
      else lookup_group acc f := by
  induction acc with
  | nil =>
    by_cases hf : c.file_path = f <;>
      simp [add_to_group, lookup_group, List.find?, hf]
  | cons kv rest ih =>
    obtain ⟨k, v⟩ := kv
    by_cases hk : k = c.file_path
    · by_cases hf : k = f
      · have hcf : c.file_path = f := hk.symm.trans hf
        simp [add_to_group, lookup_group, List.find?, hk, hf, hcf]
      · have hcf : ¬ c.file_path = f := fun hx => hf (hk.trans hx)
        simp [add_to_group, lookup_group, List.find?, hk, hf, hcf]
    · by_cases hf : k = f
      · have hcf : ¬ c.file_path = f := fun hx => hk (hf.trans hx.symm)
        have hkf : ¬ f = c.file_path := fun hx => hk (hf.trans hx)
        simp [add_to_group, lookup_group, List.find?, hk, hf, hcf, hkf]
      · simpa [add_to_group, lookup_group, List.find?, hk, hf] using ih

theorem lookup_foldl :
    ∀ (l : List PRComment) (acc : List (List Char × List PRComment))
      (f : List Char),
      lookup_group (l.foldl add_to_group acc) f =
        lookup_group acc f ++ l.filter (fun c => c.file_path = f) := by
  intro l
  induction l with
  | nil => intro acc f; simp
  | cons c rest ih =>
    intro acc f
    rw [List.foldl_cons, ih, lookup_add_to_group]
    by_cases hf : c.file_path = f
    · rw [if_pos hf, List.filter_cons_of_pos (by simp [hf])]
      simp
    · rw [if_neg hf, List.filter_cons_of_neg (by simp [hf])]

theorem lookup_group_by_file (comments : List PRComment) (f : List Char) :
    lookup_group (group_by_file comments) f =
      comments.filter (fun c => c.file_path = f) := by
  simp only [group_by_file]
  rw [lookup_foldl]
  simp [lookup_group, List.find?]

/-- C5: in both the grouped and claude renderers (which share
`sorted_file_sections`), the per-file sections are in strictly increasing
lexicographic order of file path, and each section's comment list is a
permutation of that file's comments sorted by
`(line_number or 0, updated_at)` ascending. -/
theorem claim5_section_order (comments : List PRComment)
    (h : comments ≠ []) :
    ((sorted_file_sections comments).map Prod.fst).Pairwise
      (fun a b => pyStrLt a b = true) ∧
    ∀ s ∈ sorted_file_sections comments,
      s.snd.Perm (comments.filter (fun c => c.file_path = s.fst)) ∧
      s.snd.Pairwise (fun a b => comment_key_le a b = true) := by
  have hkeys : (sorted_file_sections comments).map Prod.fst =
      List.mergeSort ((group_by_file comments).map Prod.fst) pyStrLe := by
    simp only [sorted_file_sections, sorted_file_keys, List.map_map]
    rw [show (Prod.fst ∘ fun f =>
        (f, sort_file_comments (lookup_group (group_by_file comments) f))) =
      id from rfl, List.map_id]
  constructor
  · rw [hkeys]
    have hle : (List.mergeSort ((group_by_file comments).map Prod.fst)
        pyStrLe).Pairwise (fun a b => pyStrLe a b = true) :=
      List.sorted_mergeSort pyStrLe_trans pyStrLe_total _
    have hnd : (List.mergeSort ((group_by_file comments).map Prod.fst)
        pyStrLe).Nodup :=
      (List.mergeSort_perm _ _).symm.nodup (group_keys_nodup comments)
    exact (hle.and hnd).imp (fun hab => pyStrLt_of_le_of_ne _ _ hab.1 hab.2)
  · intro s hs
    simp only [sorted_file_sections, List.mem_map] at hs
    obtain ⟨f, hf, rfl⟩ := hs
    refine ⟨?_, ?_⟩
    · show (sort_file_comments
          (lookup_group (group_by_file comments) f)).Perm
            (comments.filter (fun c => c.file_path = f))
      rw [← lookup_group_by_file comments f]
      exact List.mergeSort_perm _ _
    · show (sort_file_comments
          (lookup_group (group_by_file comments) f)).Pairwise
            (fun a b => comment_key_le a b = true)
      exact List.sorted_mergeSort comment_key_le_trans comment_key_le_total _

/-- C5 witness: the grouped demo (files `b.py`, `a.py`, `a.py`) renders its
sections in lexicographic file order with sorted comment lists. -/
theorem claim5_section_order_witness :
    ((sorted_file_sections grouped_demo).map Prod.fst).Pairwise
      (fun a b => pyStrLt a b = true) ∧
    ∀ s ∈ sorted_file_sections grouped_demo,
      s.snd.Perm (grouped_demo.filter (fun c => c.file_path = s.fst)) ∧
      s.snd.Pairwise (fun a b => comment_key_le a b = true) :=
  claim5_section_order grouped_demo (by decide)

theorem dt_le_refl (d : Datetime) : Datetime.le d d = true := by
  simp [Datetime.le]

theorem dt_le_trans {a b c : Datetime} (hab : Datetime.le a b = true)
    (hbc : Datetime.le b c = true) : Datetime.le a c = true := by
  simp only [Datetime.le, decide_eq_true_eq] at hab hbc ⊢
  omega

theorem dt_le_pick_left (x y : PRComment) :
    Datetime.le x.updated_at (pick_later x y).updated_at = true := by
  by_cases h : Datetime.lt x.updated_at y.updated_at = true
  · simp only [pick_later, if_pos h]
    simp only [Datetime.lt, decide_eq_true_eq] at h
    simp only [Datetime.le, decide_eq_true_eq]
    omega
  · simp only [pick_later, if_neg h]
    exact dt_le_refl _

theorem dt_le_pick_right (x y : PRComment) :
    Datetime.le y.updated_at (pick_later x y).updated_at = true := by
  by_cases h : Datetime.lt x.updated_at y.updated_at = true
  · simp only [pick_later, if_pos h]
    exact dt_le_refl _
  · simp only [pick_later, if_neg h]
    simp only [Datetime.lt, decide_eq_true_eq, not_lt] at h
    simp only [Datetime.le, decide_eq_true_eq]
    omega

theorem foldl_pick_mem :
    ∀ (xs : List PRComment) (x : PRComment), xs.foldl pick_later x ∈ x :: xs := by
  intro xs
  induction xs with
  | nil => intro x; simp
  | cons y ys ih =>
    intro x
    rw [List.foldl_cons]
    rcases List.mem_cons.mp (ih (pick_later x y)) with h | h
    · rw [h]
      by_cases hlt : Datetime.lt x.updated_at y.updated_at = true
      · simp [pick_later, hlt]
      · simp [pick_later, hlt]
    · simp [List.mem_cons.mpr (Or.inr h), List.mem_cons]

theorem foldl_pick_ge :
    ∀ (xs : List PRComment) (x c : PRComment), c ∈ x :: xs →
      Datetime.le c.updated_at (xs.foldl pick_later x).updated_at = true := by
  intro xs
  induction xs with
  | nil =>
    intro x c hc
    rw [List.mem_singleton] at hc
    subst hc
    exact dt_le_refl _
  | cons y ys ih =>
    intro x c hc
    rw [List.foldl_cons]
    rcases List.mem_cons.mp hc with rfl | hc'
    · exact dt_le_trans (dt_le_pick_left c y)
        (ih (pick_later c y) _ (List.mem_cons_self _ _))
    · rcases List.mem_cons.mp hc' with rfl | hc''
      · exact dt_le_trans (dt_le_pick_right x c)
          (ih (pick_later x c) _ (List.mem_cons_self _ _))
      · exact ih (pick_later x y) c (List.mem_cons_of_mem _ hc'')

theorem upsert_not_mem (acc : List (List Char × PRComment)) (c : PRComment)
    (h : c.file_path ∉ acc.map Prod.fst) :
    upsert_recent acc c = acc ++ [(c.file_path, c)] := by
  induction acc with
  | nil => rfl
  | cons kv rest ih =>
    obtain ⟨k, e⟩ := kv
    simp only [List.map_cons, List.mem_cons] at h
    push_neg at h
    have hk : ¬ k = c.file_path := fun hx => h.1 hx.symm
    simp only [upsert_recent, if_neg hk, List.cons_append]
    rw [ih h.2]

theorem upsert_keys_mem (acc : List (List Char × PRComment)) (c : PRComment)
    (h : c.file_path ∈ acc.map Prod.fst) :
    (upsert_recent acc c).map Prod.fst = acc.map Prod.fst := by
  induction acc with
  | nil => simp at h
  | cons kv rest ih =>
    obtain ⟨k, e⟩ := kv
    by_cases hk : k = c.file_path
    · simp only [upsert_recent, if_pos hk, List.map_cons]
      by_cases hlt : Datetime.lt e.updated_at c.updated_at = true
      · simp [hlt]
      · simp [hlt]
    · have h' : c.file_path ∈ rest.map Prod.fst := by
        simp only [List.map_cons, List.mem_cons] at h
        rcases h with h | h
        · exact absurd h.symm hk
        · exact h
      simp only [upsert_recent, if_neg hk, List.map_cons, ih h']

theorem upsert_keys_nodup (acc : List (List Char × PRComment)) (c : PRComment)
    (h : (acc.map Prod.fst).Nodup) :
    ((upsert_recent acc c).map Prod.fst).Nodup := by
  by_cases hmem : c.file_path ∈ acc.map Prod.fst
  · rw [upsert_keys_mem acc c hmem]
    exact h
  · rw [upsert_not_mem acc c hmem, List.map_append]
    rw [List.nodup_append]
    refine ⟨h, List.nodup_singleton _, ?_⟩
    intro a ha hb
    simp only [List.map_cons, List.map_nil, List.mem_singleton] at hb
    subst hb
    exact hmem ha

theorem upsert_map_fold (c : PRComment) :
    ∀ (acc : List (List Char × PRComment)), (acc.map Prod.fst).Nodup →
      c.file_path ∈ acc.map Prod.fst → ∀ (l : List PRComment),
      (upsert_recent acc c).map (fun kv => List.foldl pick_later kv.2
          (l.filter (fun x => x.file_path = kv.1))) =
        acc.map (fun kv => List.foldl pick_later kv.2
          ((c :: l).filter (fun x => x.file_path = kv.1))) := by
  intro acc
  induction acc with
  | nil => intro _ hmem; simp at hmem
  | cons kv rest ih =>
    obtain ⟨k, e⟩ := kv
    intro hnd hmem l
    by_cases hk : k = c.file_path
    · have hknotin : k ∉ rest.map Prod.fst := (List.nodup_cons.mp hnd).1
      have htail : rest.map (fun kv => List.foldl pick_later kv.2
            (l.filter (fun x => x.file_path = kv.1))) =
          rest.map (fun kv => List.foldl pick_later kv.2
            ((c :: l).filter (fun x => x.file_path = kv.1))) := by
        apply List.map_congr_left
        intro kv hkv
        have hne : ¬ c.file_path = kv.1 := by
          intro hx
          have hkv1 : kv.1 ∈ rest.map Prod.fst :=
            List.mem_map_of_mem Prod.fst hkv
          rw [← hx, ← hk] at hkv1
          exact hknotin hkv1
        rw [List.filter_cons_of_neg (by simpa using hne)]
      have hhead : (c :: l).filter (fun x => x.file_path = k) =
          c :: l.filter (fun x => x.file_path = k) :=
        List.filter_cons_of_pos (by simp [hk.symm])
      simp only [upsert_recent, if_pos hk]
      by_cases hlt : Datetime.lt e.updated_at c.updated_at = true
      · simp only [if_pos hlt, List.map_cons, hhead, List.foldl_cons]
        rw [htail]
        have : pick_later e c = c := by simp [pick_later, hlt]
        rw [this]
      · simp only [if_neg hlt, List.map_cons, hhead, List.foldl_cons]
        rw [htail]
        have : pick_later e c = e := by simp [pick_later, hlt]
        rw [this]
    · have h' : c.file_path ∈ rest.map Prod.fst := by
        simp only [List.map_cons, List.mem_cons] at hmem
        rcases hmem with hx | hx
        · exact absurd hx.symm hk
        · exact hx
      have hne : ¬ c.file_path = k := fun hx => hk hx.symm
      simp only [upsert_recent, if_neg hk, List.map_cons]
      rw [List.filter_cons_of_neg (by simpa using hne)]
      rw [ih (List.nodup_cons.mp hnd).2 h' l]

theorem fsAux_congr :
    ∀ (xs s1 s2 : List (List Char)), (∀ a, a ∈ s1 ↔ a ∈ s2) →
      fsAux s1 xs = fsAux s2 xs := by
  intro xs
  induction xs with
  | nil => intro s1 s2 _; rfl
  | cons x rest ih =>
    intro s1 s2 h
    by_cases hx : x ∈ s1
    · have hx2 : x ∈ s2 := (h x).mp hx
      simp only [fsAux, if_pos hx, if_pos hx2]
      exact ih s1 s2 h
    · have hx2 : x ∉ s2 := fun hc => hx ((h x).mpr hc)
      simp only [fsAux, if_neg hx, if_neg hx2]
      rw [ih (x :: s1) (x :: s2) (by
        intro a
        simp only [List.mem_cons]
        exact or_congr Iff.rfl (h a))]

theorem fsAux_not_mem :
    ∀ (xs seen : List (List Char)) (a : List Char),
      a ∈ fsAux seen xs → a ∉ seen := by
  intro xs
  induction xs with
  | nil => intro seen a ha; simp [fsAux] at ha
  | cons x rest ih =>
    intro seen a ha
    by_cases hx : x ∈ seen
    · rw [fsAux, if_pos hx] at ha
      exact ih seen a ha
    · rw [fsAux, if_neg hx] at ha
      rcases List.mem_cons.mp ha with rfl | ha'
      · exact hx
      · intro hseen
        exact ih (x :: seen) a ha' (List.mem_cons_of_mem _ hseen)

theorem fold_upsert_eq :
    ∀ (l : List PRComment) (acc : List (List Char × PRComment)),
      (acc.map Prod.fst).Nodup →
      (List.foldl upsert_recent acc l).map Prod.snd =
        acc.map (fun kv => List.foldl pick_later kv.2
          (l.filter (fun x => x.file_path = kv.1))) ++
        (fsAux (acc.map Prod.fst) (l.map PRComment.file_path)).filterMap
          (fun f => first_max (l.filter (fun x => x.file_path = f))) := by
  intro l
  induction l with
  | nil =>
    intro acc _
    simp [fsAux]
  | cons c rest ih =>
    intro acc hnd
    rw [List.foldl_cons, ih (upsert_recent acc c) (upsert_keys_nodup acc c hnd)]
    by_cases hmem : c.file_path ∈ acc.map Prod.fst
    · rw [upsert_map_fold c acc hnd hmem rest, upsert_keys_mem acc c hmem]
      simp only [List.map_cons, fsAux, if_pos hmem]
      congr 1
      apply List.filterMap_congr
      intro f hf
      have hne : ¬ c.file_path = f := by
        intro hx
        exact fsAux_not_mem _ _ _ hf (hx ▸ hmem)
      rw [List.filter_cons_of_neg (by simpa using hne)]
    · rw [upsert_not_mem acc c hmem]
      simp only [List.map_append, List.map_cons, List.map_nil, fsAux,
        if_neg hmem]
      have hwhole : (c :: rest).filter (fun x => x.file_path = c.file_path) =
          c :: rest.filter (fun x => x.file_path = c.file_path) :=
        List.filter_cons_of_pos (by simp)
      rw [List.filterMap_cons]
      have hfm : first_max ((c :: rest).filter
          (fun x => x.file_path = c.file_path)) =
          some ((rest.filter (fun x => x.file_path = c.file_path)).foldl
            pick_later c) := by
        rw [hwhole, first_max]
      rw [hfm]
      have hmap : acc.map (fun kv => List.foldl pick_later kv.2
            (rest.filter (fun x => x.file_path = kv.1))) =
          acc.map (fun kv => List.foldl pick_later kv.2
            ((c :: rest).filter (fun x => x.file_path = kv.1))) := by
        apply List.map_congr_left
        intro kv hkv
        have hne : ¬ c.file_path = kv.1 := by
          intro hx
          exact hmem (hx ▸ List.mem_map_of_mem Prod.fst hkv)
        rw [List.filter_cons_of_neg (by simpa using hne)]
      rw [hmap]
      have hseen : fsAux (acc.map Prod.fst ++ [c.file_path])
            (rest.map PRComment.file_path) =
          fsAux (c.file_path :: acc.map Prod.fst)
            (rest.map PRComment.file_path) := by
        apply fsAux_congr
        intro a
        simp only [List.mem_append, List.mem_singleton, List.mem_cons]
        tauto
      rw [hseen]
      have htailfm : (fsAux (c.file_path :: acc.map Prod.fst)
            (rest.map PRComment.file_path)).filterMap
            (fun f => first_max (rest.filter (fun x => x.file_path = f))) =
          (fsAux (c.file_path :: acc.map Prod.fst)
            (rest.map PRComment.file_path)).filterMap
            (fun f => first_max ((c :: rest).filter
              (fun x => x.file_path = f))) := by
        apply List.filterMap_congr
        intro f hf
        have hne : ¬ c.file_path = f := by
          intro hx
          subst hx
          exact fsAux_not_mem _ _ _ hf (List.mem_cons_self _ _)
        rw [List.filter_cons_of_neg (by simpa using hne)]
      rw [htailfm]
      simp

/-- C3 counterexample: two comments on the same file with exactly equal
`updated_at`: the scan's strict `>` comparison keeps the
earlier-encountered record, not the later one as the claim states. -/
theorem claim3_most_recent_counterexample :
    get_most_recent_per_file [tie_first, tie_second] = [tie_first] ∧
    tie_first ≠ tie_second := by
  decide

/-- C3 amended: `most_recent_per_file` returns exactly one record per
distinct `file_path` (in first-seen path order) — the first-encountered
record attaining the greatest `updated_at` among that file's records, so
on exactly equal `updated_at` the record encountered EARLIER in
left-to-right iteration order is kept; every returned record comes from
the input and no record of its file has a strictly greater `updated_at`. -/
theorem claim3_most_recent (comments : List PRComment) :
    get_most_recent_per_file comments = most_recent_spec comments ∧
    ∀ r ∈ get_most_recent_per_file comments,
      r ∈ comments ∧
      ∀ c ∈ comments, c.file_path = r.file_path →
        Datetime.le c.updated_at r.updated_at = true := by
  have hmain : get_most_recent_per_file comments = most_recent_spec comments := by
    simp only [get_most_recent_per_file, most_recent_spec, first_seen_paths]
    rw [fold_upsert_eq comments [] (by simp)]
    simp
  refine ⟨hmain, ?_⟩
  rw [hmain]
  intro r hr
  simp only [most_recent_spec, List.mem_filterMap] at hr
  obtain ⟨f, hf, hfm⟩ := hr
  cases hcf : comments.filter (fun c => c.file_path = f) with
  | nil =>
    rw [hcf] at hfm
    simp [first_max] at hfm
  | cons x xs =>
    rw [hcf] at hfm
    rw [first_max, Option.some.injEq] at hfm
    have hrmem : xs.foldl pick_later x ∈
        comments.filter (fun c => c.file_path = f) := by
      rw [hcf]
      exact foldl_pick_mem xs x
    subst hfm
    constructor
    · exact List.mem_of_mem_filter hrmem
    · intro c hc hcpath
      have hrf : (xs.foldl pick_later x).file_path = f := by
        have := (List.mem_filter.mp hrmem).2
        simpa using this
      have hcmem : c ∈ comments.filter (fun c => c.file_path = f) :=
        List.mem_filter.mpr ⟨hc, by simp [hcpath, hrf]⟩
      rw [hcf] at hcmem
      exact foldl_pick_ge xs x c hcmem

/-- C3 witness: the amended statement at the equal-timestamp pair — the
earlier record is returned and its `updated_at` is maximal. -/
theorem claim3_most_recent_witness :
    get_most_recent_per_file [tie_first, tie_second] =
      most_recent_spec [tie_first, tie_second] ∧
    ∀ r ∈ get_most_recent_per_file [tie_first, tie_second],
      r ∈ [tie_first, tie_second] ∧
      ∀ c ∈ [tie_first, tie_second], c.file_path = r.file_path →
        Datetime.le c.updated_at r.updated_at = true :=
  claim3_most_recent [tie_first, tie_second]

end PRCF
